import Mathlib

/-!
Shallow embedding of `cknight/kv-utils` (`src/mod.ts`), a batch write/delete
engine over Deno KV.  Pure TypeScript control flow is translated to Lean
functions; the effectful Deno KV store is modelled by an explicit state `S`
holding the store contents, a script of fault booleans (one consumed by every
fallible store call, in call order: a `true` means that call throws), and a
trace of store events (list completions, atomic commit attempts, single-item
set/delete attempts).  `JSON.stringify` is modelled by a canonical JSON
serializer over a JSON value type covering the payload shapes the library
meets (null, booleans, integers, strings with escaping, arrays); lengths are
counted in characters, matching JS string length on the BMP.
-/

namespace KvUtils

/-- JSON values, the model of the `unknown` payloads stored in the KV store. -/
inductive JsonValue where
  | null : JsonValue
  | bool (b : Bool) : JsonValue
  | num (n : Int) : JsonValue
  | str (s : String) : JsonValue
  | arr (xs : List JsonValue) : JsonValue

/-- A component of a `Deno.KvKey` (string, number or boolean part). -/
inductive KeyPart where
  | str (s : String) : KeyPart
  | num (n : Int) : KeyPart
  | bool (b : Bool) : KeyPart
deriving DecidableEq

/-- A `Deno.KvKey`: an ordered sequence of key parts. -/
abbrev Key := List KeyPart

/-- Constant `MAX_NUM_TRANSACTIONS` from `mod.ts` line 8. -/
def MAX_NUM_TRANSACTIONS : Nat := 1000

/-- Constant `MAX_KV_VALUE_SIZE` from `mod.ts` line 9: `1024 * 64` bytes. -/
def MAX_KV_VALUE_SIZE : Nat := 1024 * 64

/-- Constant `MAX_TRANSACTION_SIZE` from `mod.ts` line 10: `819000` bytes. -/
def MAX_TRANSACTION_SIZE : Nat := 819000

/-- Constant `SIZE_LIMIT` from `mod.ts` line 11. -/
def SIZE_LIMIT : Nat := MAX_TRANSACTION_SIZE - MAX_KV_VALUE_SIZE

/-- Hexadecimal digit character of `n % 16`. -/
def hexDigit (n : Nat) : Char :=
  if n % 16 < 10 then Char.ofNat (48 + n % 16) else Char.ofNat (87 + n % 16)

/-- Named short escapes of JSON strings (`\n`, `\t`, `\r`, `\b`, `\f`). -/
def shortEscapes : List (Char × Char) :=
  [('\n', 'n'), ('\t', 't'), ('\r', 'r'), ('\x08', 'b'), ('\x0c', 'f')]

/-- JSON string escaping of one character, as `JSON.stringify` performs it:
quote and backslash are backslash-escaped, the named control characters get
their short escapes, the remaining control characters get `\uXXXX` forms,
and everything else stands for itself. -/
def escapeChar (c : Char) : List Char :=
  if c = '"' ∨ c = '\\' then ['\\', c]
  else
    match shortEscapes.lookup c with
    | some e => ['\\', e]
    | none =>
        if c.toNat < 32 then
          '\\' :: 'u' :: [hexDigit (c.toNat / 4096), hexDigit (c.toNat / 256),
            hexDigit (c.toNat / 16), hexDigit c.toNat]
        else [c]

/-- Wrap serialized string contents in quotes. -/
def quoteStr (cs : List Char) : List Char := ['"'] ++ cs ++ ['"']

mutual

/-- Characters of the canonical JSON serialization, modelling `JSON.stringify`. -/
def stringifyChars : JsonValue → List Char
  | .null => "null".data
  | .bool b => (cond b "true" "false").data
  | .num n => (toString n).data
  | .str s => quoteStr ((s.data.map escapeChar).flatten)
  | .arr xs => '[' :: (stringifySep xs ++ [']'])

/-- Comma-separated serialization of a list of JSON values. -/
def stringifySep : List JsonValue → List Char
  | [] => []
  | [x] => stringifyChars x
  | x :: y :: xs => stringifyChars x ++ ',' :: stringifySep (y :: xs)

end

/-- Function `computeTransactionSize` from `mod.ts` lines 237-239:
`JSON.stringify(value).length`. -/
def computeTransactionSize (v : JsonValue) : Nat := (stringifyChars v).length

/-- A key part viewed as the JSON value `JSON.stringify` would serialize. -/
def KeyPart.toJson : KeyPart → JsonValue
  | .str s => .str s
  | .num n => .num n
  | .bool b => .bool b

/-- A key viewed as the JSON array `JSON.stringify` would serialize. -/
def Key.toJson (k : Key) : JsonValue := .arr (k.map KeyPart.toJson)

/-- A staged mutation of an atomic transaction (`atomic.set` / `atomic.delete`). -/
inductive Mutation where
  | set (k : Key) (v : JsonValue) : Mutation
  | del (k : Key) : Mutation

/-- An observable interaction with the KV store. -/
inductive Event where
  | listed (keys : List Key) : Event
  | commit (muts : List Mutation) (ok : Bool) : Event
  | singleSet (k : Key) (ok : Bool) : Event
  | singleDelete (k : Key) (ok : Bool) : Event

/-- The state threaded through every store interaction: store contents (an
association list with structurally unique keys), the remaining fault script,
and the trace of events so far. -/
structure S where
  store : List (Key × JsonValue)
  faults : List Bool
  trace : List Event

/-- Consume the next fault-script entry; an exhausted script means success. -/
def nextFault : S → Bool × S
  | ⟨st, [], tr⟩ => (false, ⟨st, [], tr⟩)
  | ⟨st, f :: fs, tr⟩ => (f, ⟨st, fs, tr⟩)

/-- Apply one mutation to the store contents (set upserts in place, delete
removes the key). -/
def applyMut (st : List (Key × JsonValue)) : Mutation → List (Key × JsonValue)
  | .set k v =>
      if st.any (fun e => e.1 == k) then
        st.map (fun e => if e.1 == k then (k, v) else e)
      else st ++ [(k, v)]
  | .del k => st.filter (fun e => !(e.1 == k))

/-- Model of `atomic.commit()`: apply all staged mutations or fail wholesale; one
fault-script entry decides which, and the attempt is recorded in the trace. -/
def commitAtomic (muts : List Mutation) (s : S) : Bool × S :=
  let p := nextFault s
  if p.1 then
    (false, { p.2 with trace := p.2.trace ++ [Event.commit muts false] })
  else
    (true, { p.2 with store := muts.foldl applyMut p.2.store,
                      trace := p.2.trace ++ [Event.commit muts true] })

/-- Model of `kv.set(key, value)` as a single-item implicit transaction. -/
def kvSetOne (k : Key) (v : JsonValue) (s : S) : Bool × S :=
  let p := nextFault s
  if p.1 then
    (false, { p.2 with trace := p.2.trace ++ [Event.singleSet k false] })
  else
    (true, { p.2 with store := applyMut p.2.store (Mutation.set k v),
                      trace := p.2.trace ++ [Event.singleSet k true] })

/-- Model of `kv.delete(key)` as a single-item implicit transaction. -/
def kvDeleteOne (k : Key) (s : S) : Bool × S :=
  let p := nextFault s
  if p.1 then
    (false, { p.2 with trace := p.2.trace ++ [Event.singleDelete k false] })
  else
    (true, { p.2 with store := applyMut p.2.store (Mutation.del k),
                      trace := p.2.trace ++ [Event.singleDelete k true] })

/-- A `Deno.KvListSelector`; range bounds beyond the matched component
sequence live in the external store and are not needed by the claims. -/
structure ListSelector where
  pfx : Key
deriving DecidableEq

/-- The keys the store's `list` iteration yields for a selector. -/
def matchingKeys (sel : ListSelector) (st : List (Key × JsonValue)) : List Key :=
  (st.filter (fun e => sel.pfx.isPrefixOf e.1)).map (fun e => e.1)

/-- Model of `kv.list(selector)`, materialized: either the iteration throws (`none`,
one fault consumed, nothing listed) or the full matching key sequence is
produced and recorded. -/
def kvList (sel : ListSelector) (s : S) : Option (List Key) × S :=
  let p := nextFault s
  if p.1 then (none, p.2)
  else
    (some (matchingKeys sel p.2.store),
     { p.2 with trace := p.2.trace ++ [Event.listed (matchingKeys sel p.2.store)] })

/-- Interface `MultiResult` from `mod.ts` lines 3-6; the absent `failedKeys` field of a
successful result is modelled as `[]`. -/
structure MultiResult where
  ok : Bool
  failedKeys : List Key
deriving DecidableEq

/-- The result construction shared by the batch operations
(`failedKeys.length > 0 ? {ok: false, failedKeys} : {ok: true}`). -/
def mkResult (fk : List Key) : MultiResult :=
  if fk.length > 0 then ⟨false, fk⟩ else ⟨true, []⟩

/-- Model of `keyValues.get(key)`; the JS `Map` is keyed by reference, but every key
looked up here is a key of the map itself, so a structural first-match lookup
is faithful.  A missing key would yield `undefined`, modelled as `null`. -/
def mapGet (kvs : List (Key × JsonValue)) (k : Key) : JsonValue :=
  match kvs.find? (fun e => e.1 == k) with
  | some e => e.2
  | none => .null

/-- Function `retrySetIndividually` from `mod.ts` lines 208-221: re-apply each key of a
failed group with `kv.set`, collecting the keys whose individual attempt
throws, in submission order. -/
def retrySetIndividually : List Key → List (Key × JsonValue) → S → List Key × S
  | [], _kvs, s => ([], s)
  | k :: rest, kvs, s =>
      let a := kvSetOne k (mapGet kvs k) s
      let r := retrySetIndividually rest kvs a.2
      (if a.1 then r.1 else k :: r.1, r.2)

/-- Function `retryDeleteIndividually` from `mod.ts` lines 223-235. -/
def retryDeleteIndividually : List Key → S → List Key × S
  | [], s => ([], s)
  | k :: rest, s =>
      let a := kvDeleteOne k s
      let r := retryDeleteIndividually rest a.2
      (if a.1 then r.1 else k :: r.1, r.2)

/-- The per-operation size `multiSet` adds to `transactionSize`
(`computeTransactionSize(value)`, `mod.ts` line 30). -/
def setSize (e : Key × JsonValue) : Nat := computeTransactionSize e.2

/-- The per-operation size `multiDelete` adds to `transactionSize`
(`computeTransactionSize(key)`, `mod.ts` line 83). -/
def delSize (k : Key) : Nat := computeTransactionSize (Key.toJson k)

/-- The loop of `multiSet` (`mod.ts` lines 27-49), with the trailing
flush of a non-empty leftover group.  Arguments: remaining input, the full
caller map (for `keyValues.get` in the retrier), the staged mutations of the
open atomic transaction, `count`, `transactionSize`, `keysInAction`,
`failedKeys`, and the store state. -/
def multiSetLoop : List (Key × JsonValue) → List (Key × JsonValue) →
    List Mutation → Nat → Nat → List Key → List Key → S → List Key × S
  | [], full, muts, cnt, _sz, kia, fk, s =>
      if 0 < cnt then
        let c := commitAtomic muts s
        if c.1 then (fk, c.2)
        else
          let r := retrySetIndividually kia full c.2
          (fk ++ r.1, r.2)
      else (fk, s)
  | (k, v) :: rest, full, muts, cnt, sz, kia, fk, s =>
      if cnt + 1 = MAX_NUM_TRANSACTIONS ∨ SIZE_LIMIT < sz + setSize (k, v) then
        let c := commitAtomic (muts ++ [Mutation.set k v]) s
        if c.1 then multiSetLoop rest full [] 0 0 [] fk c.2
        else
          let r := retrySetIndividually (kia ++ [k]) full c.2
          multiSetLoop rest full [] 0 0 [] (fk ++ r.1) r.2
      else
        multiSetLoop rest full (muts ++ [Mutation.set k v]) (cnt + 1)
          (sz + setSize (k, v)) (kia ++ [k]) fk s

/-- Function `multiSet` from `mod.ts` lines 19-54.  The caller-supplied `Map` is its
ordered list of entries (insertion order, structurally unique keys). -/
def multiSet (keyValues : List (Key × JsonValue)) (s : S) : MultiResult × S :=
  let r := multiSetLoop keyValues keyValues [] 0 0 [] [] s
  (mkResult r.1, r.2)

/-- The loop of `multiDelete` (`mod.ts` lines 80-102) over the materialized
key list, with the trailing flush of a non-empty leftover group. -/
def multiDeleteLoop : List Key → List Mutation → Nat → Nat →
    List Key → List Key → S → List Key × S
  | [], muts, cnt, _sz, kia, fk, s =>
      if 0 < cnt then
        let c := commitAtomic muts s
        if c.1 then (fk, c.2)
        else
          let r := retryDeleteIndividually kia c.2
          (fk ++ r.1, r.2)
      else (fk, s)
  | k :: rest, muts, cnt, sz, kia, fk, s =>
      if cnt + 1 = MAX_NUM_TRANSACTIONS ∨ SIZE_LIMIT < sz + delSize k then
        let c := commitAtomic (muts ++ [Mutation.del k]) s
        if c.1 then multiDeleteLoop rest [] 0 0 [] fk c.2
        else
          let r := retryDeleteIndividually (kia ++ [k]) c.2
          multiDeleteLoop rest [] 0 0 [] (fk ++ r.1) r.2
      else
        multiDeleteLoop rest (muts ++ [Mutation.del k]) (cnt + 1)
          (sz + delSize k) (kia ++ [k]) fk s

/-- The source of a `multiDelete` call: an explicit key array or a selector. -/
inductive DeleteSource where
  | keys (ks : List Key) : DeleteSource
  | selector (sel : ListSelector) : DeleteSource

/-- The body of `multiDelete` once the key list is in hand. -/
def multiDeleteKeys (ks : List Key) (s : S) : MultiResult × S :=
  let r := multiDeleteLoop ks [] 0 0 [] [] s
  (mkResult r.1, r.2)

/-- Function `multiDelete` from `mod.ts` lines 62-107.  A selector source first
materializes the matching keys via `kv.list`; a throwing iteration propagates
out of the call (`none`) before any mutation is staged. -/
def multiDelete (source : DeleteSource) (s : S) : Option MultiResult × S :=
  match source with
  | .keys ks =>
      let r := multiDeleteKeys ks s
      (some r.1, r.2)
  | .selector sel =>
      match kvList sel s with
      | (none, s1) => (none, s1)
      | (some ks, s1) =>
          let r := multiDeleteKeys ks s1
          (some r.1, r.2)

/-- Function `wipeKvStore` from `mod.ts` lines 114-116. -/
def wipeKvStore (s : S) : Option MultiResult × S :=
  multiDelete (.selector ⟨[]⟩) s

/-- Function `count` from `mod.ts` lines 123-129: count the listed entries; a throwing
iteration propagates (`none`, no partial integer). -/
def count (sel : ListSelector) (s : S) : Option Nat × S :=
  match kvList sel s with
  | (none, s1) => (none, s1)
  | (some ks, s1) => (some ks.length, s1)

/-- Function `countAll` from `mod.ts` lines 135-137. -/
def countAll (s : S) : Option Nat × S :=
  count ⟨[]⟩ s

/-- The entries the remote store's `list(selector, eventual)` yields; the
remote store is an external collaborator modelled as a fixed snapshot whose
reads do not fault. -/
def remoteMatching (sel : ListSelector) (remote : List (Key × JsonValue)) :
    List (Key × JsonValue) :=
  remote.filter (fun e => sel.pfx.isPrefixOf e.1)

/-- The delete phase of `replaceLocalDataWithRemote` with prefixes
(`mod.ts` lines 158-165): one `multiDelete` per selector, collecting the
failed keys of unsuccessful results; a throwing delete propagates. -/
def deletePhase : List ListSelector → List Key → S → Option (List Key) × S
  | [], acc, s => (some acc, s)
  | p :: ps, acc, s =>
      match multiDelete (.selector p) s with
      | (none, s1) => (none, s1)
      | (some r, s1) =>
          deletePhase ps (acc ++ if r.ok then [] else r.failedKeys) s1

/-- Function `replaceLocalDataWithRemote` from `mod.ts` lines 151-206.  The remote
fetch collects entries into a `Map` keyed by the fresh key objects each
iteration yields, so across selectors the collection is a plain
concatenation of the per-selector listings. -/
def replaceLocalDataWithRemote (remote : List (Key × JsonValue))
    (prefixes : Option (List ListSelector)) (s : S) : Option MultiResult × S :=
  match prefixes with
  | some ps =>
      match deletePhase ps [] s with
      | (none, s1) => (none, s1)
      | (some delFailed, s1) =>
          let data := (ps.map (fun p => remoteMatching p remote)).flatten
          let r := multiSet data s1
          (some (mkResult (delFailed ++ if r.1.ok then [] else r.1.failedKeys)),
           r.2)
  | none =>
      match wipeKvStore s with
      | (none, s1) => (none, s1)
      | (some _wiped, s1) =>
          let data := remoteMatching ⟨[]⟩ remote
          let r := multiSet data s1
          (some (mkResult (if r.1.ok then [] else r.1.failedKeys)), r.2)

/-! ### The batch planner, factored out of the two loops

Both loops seal the open group exactly when `++count == MAX_NUM_TRANSACTIONS`
or the accumulated `transactionSize` exceeds `SIZE_LIMIT`.  `planAux`/
`planGroups` compute the resulting partition of the input into groups, and
`runGroupsSet`/`runGroupsDel` replay the commit-or-fallback phase per group;
the decomposition theorems below prove the loops equal to this pipeline. -/

/-- Group partitioning with the loops' sealing condition; `acc` is the open
group, its item count is `acc.length`, and `sz` its accumulated size. -/
def planAux {α : Type} (f : α → Nat) : List α → Nat → Nat → List α → List (List α)
  | [], cnt, _sz, acc => if 0 < cnt then [acc] else []
  | x :: rest, cnt, sz, acc =>
      if cnt + 1 = MAX_NUM_TRANSACTIONS ∨ SIZE_LIMIT < sz + f x then
        (acc ++ [x]) :: planAux f rest 0 0 []
      else planAux f rest (cnt + 1) (sz + f x) (acc ++ [x])

/-- The groups the batch planner forms for an input sequence, sizing each
operation with `f`. -/
def planGroups {α : Type} (f : α → Nat) (xs : List α) : List (List α) :=
  planAux f xs 0 0 []

/-- The staged mutation of one `multiSet` input entry. -/
def setMut (e : Key × JsonValue) : Mutation := Mutation.set e.1 e.2

/-- Replay of `multiSet`'s committer: per group one atomic commit attempt;
on failure the group's keys, unmodified, go to `retrySetIndividually`. -/
def runGroupsSet (full : List (Key × JsonValue)) :
    List (List (Key × JsonValue)) → List Key → S → List Key × S
  | [], fk, s => (fk, s)
  | g :: gs, fk, s =>
      let c := commitAtomic (g.map setMut) s
      if c.1 then runGroupsSet full gs fk c.2
      else
        let r := retrySetIndividually (g.map Prod.fst) full c.2
        runGroupsSet full gs (fk ++ r.1) r.2

/-- Replay of `multiDelete`'s committer: per group one atomic commit attempt;
on failure the group's keys, unmodified, go to `retryDeleteIndividually`. -/
def runGroupsDel : List (List Key) → List Key → S → List Key × S
  | [], fk, s => (fk, s)
  | g :: gs, fk, s =>
      let c := commitAtomic (g.map Mutation.del) s
      if c.1 then runGroupsDel gs fk c.2
      else
        let r := retryDeleteIndividually g c.2
        runGroupsDel gs (fk ++ r.1) r.2

/-- The staged mutation lists of the atomic commit attempts in a trace, in
order, one entry per commit attempt. -/
def commitsOf : List Event → List (List Mutation)
  | [] => []
  | Event.commit m _ :: tr => m :: commitsOf tr
  | Event.listed _ :: tr => commitsOf tr
  | Event.singleSet _ _ :: tr => commitsOf tr
  | Event.singleDelete _ _ :: tr => commitsOf tr

/-- The size the loops charge for one staged mutation: the serialized value
of a set, the serialized key of a delete. -/
def mutationSize : Mutation → Nat
  | .set _ v => computeTransactionSize v
  | .del k => computeTransactionSize (Key.toJson k)

theorem commitsOf_append (a b : List Event) :
    commitsOf (a ++ b) = commitsOf a ++ commitsOf b := by
  induction a with
  | nil => rfl
  | cons e tr ih => cases e <;> simp [commitsOf, ih]

/-- Concatenating the planner's groups reproduces the input. -/
theorem planAux_flatten {α : Type} (f : α → Nat) (xs : List α) :
    ∀ (acc : List α) (sz : Nat),
    (planAux f xs acc.length sz acc).flatten = acc ++ xs := by
  induction xs with
  | nil =>
      intro acc sz
      by_cases h : 0 < acc.length
      · simp [planAux, h]
      · have hacc : acc = [] := by
          simpa using List.eq_nil_of_length_eq_zero (Nat.eq_zero_of_not_pos h)
        simp [planAux, h, hacc]
  | cons x rest ih =>
      intro acc sz
      by_cases h : acc.length + 1 = MAX_NUM_TRANSACTIONS ∨
          SIZE_LIMIT < sz + f x
      · have h0 := ih [] 0
        simp only [List.length_nil] at h0
        simp [planAux, h, List.flatten_cons, h0]
      · have h1 := ih (acc ++ [x]) (sz + f x)
        simp only [List.length_append, List.length_singleton] at h1
        simp only [planAux, h, if_false, ite_false]
        rw [h1]
        simp

theorem planGroups_flatten {α : Type} (f : α → Nat) (xs : List α) :
    (planGroups f xs).flatten = xs := by
  simpa using planAux_flatten f xs [] 0

theorem dropLast_sum_le (l : List Nat) : l.dropLast.sum ≤ l.sum :=
  (List.dropLast_sublist l).sum_le_sum (fun a _ => Nat.zero_le a)

/-- Every planned group respects the item ceiling, and its size excluding its
final operation respects the byte ceiling (the final operation may overflow
it, sealing the group). -/
theorem planAux_bounds {α : Type} (f : α → Nat) (xs : List α) :
    ∀ (acc : List α) (sz : Nat), sz = (acc.map f).sum →
    acc.length < MAX_NUM_TRANSACTIONS → sz ≤ SIZE_LIMIT →
    ∀ g ∈ planAux f xs acc.length sz acc,
      g.length ≤ MAX_NUM_TRANSACTIONS ∧ (g.dropLast.map f).sum ≤ SIZE_LIMIT := by
  induction xs with
  | nil =>
      intro acc sz hsz hlen hsle g hg
      by_cases h : 0 < acc.length
      · simp only [planAux, h, if_true, ite_true, List.mem_singleton] at hg
        subst hg
        refine ⟨Nat.le_of_lt hlen, ?_⟩
        calc (g.dropLast.map f).sum = ((g.map f).dropLast).sum := by
              rw [List.map_dropLast]
          _ ≤ (g.map f).sum := dropLast_sum_le _
          _ ≤ SIZE_LIMIT := hsz ▸ hsle
      · simp [planAux, h] at hg
  | cons x rest ih =>
      intro acc sz hsz hlen hsle g hg
      by_cases h : acc.length + 1 = MAX_NUM_TRANSACTIONS ∨ SIZE_LIMIT < sz + f x
      · simp only [planAux, h, if_true, ite_true, List.mem_cons] at hg
        rcases hg with hg1 | hg2
        · subst hg1
          constructor
          · simpa using Nat.succ_le_of_lt hlen
          · rw [List.dropLast_concat, ← hsz]
            exact hsle
        · have h0 := ih ([] : List α) 0 rfl (by simp only [List.length_nil]; decide) (Nat.zero_le _) g
          simp only [List.length_nil] at h0
          exact h0 hg2
      · simp only [planAux, h, if_false, ite_false] at hg
        rw [not_or] at h
        obtain ⟨hne, hnlt⟩ := h
        have hlt : acc.length + 1 < MAX_NUM_TRANSACTIONS :=
          Nat.lt_of_le_of_ne (Nat.succ_le_of_lt hlen) hne
        have h1 := ih (acc ++ [x]) (sz + f x) (by simp [hsz])
          (by simpa using hlt) (Nat.not_lt.mp hnlt) g
        simp only [List.length_append, List.length_singleton] at h1
        exact h1 hg

/-- Bounds for the groups the planner produces from scratch. -/
theorem planGroups_bounds {α : Type} (f : α → Nat) (xs : List α) :
    ∀ g ∈ planGroups f xs,
      g.length ≤ MAX_NUM_TRANSACTIONS ∧ (g.dropLast.map f).sum ≤ SIZE_LIMIT := by
  have h := planAux_bounds f xs ([] : List α) 0 rfl (by simp only [List.length_nil]; decide) (Nat.zero_le _)
  simpa only [List.length_nil] using h

theorem commitAtomic_trace (m : List Mutation) (s : S) :
    (commitAtomic m s).2.trace
      = s.trace ++ [Event.commit m ((commitAtomic m s).1)] := by
  rcases s with ⟨st, fs, tr⟩
  cases fs with
  | nil => rfl
  | cons f fs => cases f <;> rfl

theorem kvSetOne_trace (k : Key) (v : JsonValue) (s : S) :
    (kvSetOne k v s).2.trace
      = s.trace ++ [Event.singleSet k ((kvSetOne k v s).1)] := by
  rcases s with ⟨st, fs, tr⟩
  cases fs with
  | nil => rfl
  | cons f fs => cases f <;> rfl

theorem kvDeleteOne_trace (k : Key) (s : S) :
    (kvDeleteOne k s).2.trace
      = s.trace ++ [Event.singleDelete k ((kvDeleteOne k s).1)] := by
  rcases s with ⟨st, fs, tr⟩
  cases fs with
  | nil => rfl
  | cons f fs => cases f <;> rfl

/-- The key of a single-set attempt event. -/
def setAttemptKey : Event → Option Key
  | .singleSet k _ => some k
  | _ => none

/-- The key of a failed single-set attempt event. -/
def failedSetKey : Event → Option Key
  | .singleSet k false => some k
  | _ => none

/-- The key of a single-delete attempt event. -/
def delAttemptKey : Event → Option Key
  | .singleDelete k _ => some k
  | _ => none

/-- The key of a failed single-delete attempt event. -/
def failedDelKey : Event → Option Key
  | .singleDelete k false => some k
  | _ => none

/-- The set retrier appends exactly one single-set attempt per key, in
submission order, regardless of which attempts fail, and returns exactly the
keys of the failed attempts, in that order. -/
theorem retrySet_trace (kvs : List (Key × JsonValue)) (ks : List Key) :
    ∀ s : S, ∃ evts : List Event,
      (retrySetIndividually ks kvs s).2.trace = s.trace ++ evts ∧
      evts.filterMap setAttemptKey = ks ∧
      evts.filterMap failedSetKey = (retrySetIndividually ks kvs s).1 ∧
      commitsOf evts = [] := by
  induction ks with
  | nil => intro s; exact ⟨[], by simp [retrySetIndividually, commitsOf]⟩
  | cons k rest ih =>
      intro s
      obtain ⟨evts, htr, hatt, hfail, hcom⟩ := ih (kvSetOne k (mapGet kvs k) s).2
      refine ⟨Event.singleSet k ((kvSetOne k (mapGet kvs k) s).1) :: evts, ?_, ?_, ?_, ?_⟩
      · simp only [retrySetIndividually]
        rw [htr, kvSetOne_trace]
        simp
      · simp [setAttemptKey, hatt]
      · simp only [retrySetIndividually]
        cases hb : (kvSetOne k (mapGet kvs k) s).1 <;>
          simp [failedSetKey, hb, hfail]
      · simp [commitsOf, hcom]

/-- The delete retrier appends exactly one single-delete attempt per key, in
submission order, regardless of which attempts fail, and returns exactly the
keys of the failed attempts, in that order. -/
theorem retryDelete_trace (ks : List Key) :
    ∀ s : S, ∃ evts : List Event,
      (retryDeleteIndividually ks s).2.trace = s.trace ++ evts ∧
      evts.filterMap delAttemptKey = ks ∧
      evts.filterMap failedDelKey = (retryDeleteIndividually ks s).1 ∧
      commitsOf evts = [] := by
  induction ks with
  | nil => intro s; exact ⟨[], by simp [retryDeleteIndividually, commitsOf]⟩
  | cons k rest ih =>
      intro s
      obtain ⟨evts, htr, hatt, hfail, hcom⟩ := ih (kvDeleteOne k s).2
      refine ⟨Event.singleDelete k ((kvDeleteOne k s).1) :: evts, ?_, ?_, ?_, ?_⟩
      · simp only [retryDeleteIndividually]
        rw [htr, kvDeleteOne_trace]
        simp
      · simp [delAttemptKey, hatt]
      · simp only [retryDeleteIndividually]
        cases hb : (kvDeleteOne k s).1 <;>
          simp [failedDelKey, hb, hfail]
      · simp [commitsOf, hcom]

/-- The failed keys the set retrier returns are a sublist of the submitted
keys. -/
theorem retrySet_sublist (kvs : List (Key × JsonValue)) (ks : List Key) :
    ∀ s : S, List.Sublist (retrySetIndividually ks kvs s).1 ks := by
  induction ks with
  | nil => intro s; simp [retrySetIndividually]
  | cons k rest ih =>
      intro s
      simp only [retrySetIndividually]
      cases hb : (kvSetOne k (mapGet kvs k) s).1
      · simpa [hb] using (ih _).cons₂ k
      · simpa [hb] using (ih _).cons k

/-- The failed keys the delete retrier returns are a sublist of the submitted
keys. -/
theorem retryDelete_sublist (ks : List Key) :
    ∀ s : S, List.Sublist (retryDeleteIndividually ks s).1 ks := by
  induction ks with
  | nil => intro s; simp [retryDeleteIndividually]
  | cons k rest ih =>
      intro s
      simp only [retryDeleteIndividually]
      cases hb : (kvDeleteOne k s).1
      · simpa [hb] using (ih _).cons₂ k
      · simpa [hb] using (ih _).cons k

/-- The `multiSet` loop is the planner composed with the per-group
commit-or-fallback runner, for any open-group accumulator. -/
theorem multiSetLoop_eq_run (rest : List (Key × JsonValue)) :
    ∀ (full acc : List (Key × JsonValue)) (sz : Nat) (fk : List Key) (s : S),
    multiSetLoop rest full (acc.map setMut) acc.length sz (acc.map Prod.fst) fk s
      = runGroupsSet full (planAux setSize rest acc.length sz acc) fk s := by
  induction rest with
  | nil =>
      intro full acc sz fk s
      by_cases h : 0 < acc.length
      · simp only [multiSetLoop, planAux, h, if_true, ite_true, runGroupsSet]
      · simp [multiSetLoop, planAux, h, runGroupsSet]
  | cons x rest ih =>
      intro full acc sz fk s
      obtain ⟨k, v⟩ := x
      by_cases h : acc.length + 1 = MAX_NUM_TRANSACTIONS ∨
          SIZE_LIMIT < sz + setSize (k, v)
      · simp only [multiSetLoop, planAux, h, if_true, ite_true, runGroupsSet]
        have hmut : acc.map setMut ++ [Mutation.set k v]
            = (acc ++ [(k, v)]).map setMut := by simp [setMut]
        have hfst : acc.map Prod.fst ++ [k]
            = (acc ++ [(k, v)]).map Prod.fst := by simp
        rw [hmut, hfst]
        cases hc : (commitAtomic ((acc ++ [(k, v)]).map setMut) s).1
        · simp only [hc, Bool.false_eq_true, if_false, ite_false]
          have h2 := ih full ([] : List (Key × JsonValue)) 0
            (fk ++ (retrySetIndividually ((acc ++ [(k, v)]).map Prod.fst) full
              (commitAtomic ((acc ++ [(k, v)]).map setMut) s).2).1)
            ((retrySetIndividually ((acc ++ [(k, v)]).map Prod.fst) full
              (commitAtomic ((acc ++ [(k, v)]).map setMut) s).2).2)
          simpa using h2
        · simp only [hc, if_true, ite_true]
          have h2 := ih full ([] : List (Key × JsonValue)) 0 fk
            ((commitAtomic ((acc ++ [(k, v)]).map setMut) s).2)
          simpa using h2
      · simp only [multiSetLoop, planAux, h, if_false, ite_false]
        have h2 := ih full (acc ++ [(k, v)]) (sz + setSize (k, v)) fk s
        simpa [setMut] using h2

/-- The `multiDelete` loop is the planner composed with the per-group
commit-or-fallback runner, for any open-group accumulator. -/
theorem multiDeleteLoop_eq_run (rest : List Key) :
    ∀ (acc : List Key) (sz : Nat) (fk : List Key) (s : S),
    multiDeleteLoop rest (acc.map Mutation.del) acc.length sz acc fk s
      = runGroupsDel (planAux delSize rest acc.length sz acc) fk s := by
  induction rest with
  | nil =>
      intro acc sz fk s
      by_cases h : 0 < acc.length
      · simp only [multiDeleteLoop, planAux, h, if_true, ite_true, runGroupsDel]
      · simp [multiDeleteLoop, planAux, h, runGroupsDel]
  | cons k rest ih =>
      intro acc sz fk s
      by_cases h : acc.length + 1 = MAX_NUM_TRANSACTIONS ∨
          SIZE_LIMIT < sz + delSize k
      · simp only [multiDeleteLoop, planAux, h, if_true, ite_true, runGroupsDel]
        have hmut : acc.map Mutation.del ++ [Mutation.del k]
            = (acc ++ [k]).map Mutation.del := by simp
        rw [hmut]
        cases hc : (commitAtomic ((acc ++ [k]).map Mutation.del) s).1
        · simp only [hc, Bool.false_eq_true, if_false, ite_false]
          have h2 := ih ([] : List Key) 0
            (fk ++ (retryDeleteIndividually (acc ++ [k])
              (commitAtomic ((acc ++ [k]).map Mutation.del) s).2).1)
            ((retryDeleteIndividually (acc ++ [k])
              (commitAtomic ((acc ++ [k]).map Mutation.del) s).2).2)
          simpa using h2
        · simp only [hc, if_true, ite_true]
          have h2 := ih ([] : List Key) 0 fk
            ((commitAtomic ((acc ++ [k]).map Mutation.del) s).2)
          simpa using h2
      · simp only [multiDeleteLoop, planAux, h, if_false, ite_false]
        have h2 := ih (acc ++ [k]) (sz + delSize k) fk s
        simpa using h2

/-- Theorem: `multiSet` decomposed into planner, committer and fallback retrier. -/
theorem multiSet_eq_run (kvs : List (Key × JsonValue)) (s : S) :
    multiSet kvs s
      = (mkResult (runGroupsSet kvs (planGroups setSize kvs) [] s).1,
         (runGroupsSet kvs (planGroups setSize kvs) [] s).2) := by
  have h := multiSetLoop_eq_run kvs kvs ([] : List (Key × JsonValue)) 0 [] s
  simp only [List.map_nil, List.length_nil] at h
  simp [multiSet, h, planGroups]

/-- Theorem: `multiDelete`'s key loop decomposed into planner, committer and fallback
retrier. -/
theorem multiDeleteKeys_eq_run (ks : List Key) (s : S) :
    multiDeleteKeys ks s
      = (mkResult (runGroupsDel (planGroups delSize ks) [] s).1,
         (runGroupsDel (planGroups delSize ks) [] s).2) := by
  have h := multiDeleteLoop_eq_run ks ([] : List Key) 0 [] s
  simp only [List.map_nil, List.length_nil] at h
  simp [multiDeleteKeys, h, planGroups]

/-- The runner performs exactly one atomic commit attempt per group, in group
order, and nothing else commits. -/
theorem runGroupsSet_commits (full : List (Key × JsonValue))
    (gs : List (List (Key × JsonValue))) : ∀ (fk : List Key) (s : S),
    commitsOf ((runGroupsSet full gs fk s).2.trace)
      = commitsOf s.trace ++ gs.map (fun g => g.map setMut) := by
  induction gs with
  | nil => intro fk s; simp [runGroupsSet]
  | cons g gs ih =>
      intro fk s
      simp only [runGroupsSet]
      cases hc : (commitAtomic (g.map setMut) s).1
      · simp only [hc, Bool.false_eq_true, if_false, ite_false]
        rw [ih]
        obtain ⟨evts, htr, _, _, hcom⟩ := retrySet_trace full (g.map Prod.fst)
          ((commitAtomic (g.map setMut) s).2)
        rw [htr, commitsOf_append, hcom, List.append_nil, commitAtomic_trace,
          commitsOf_append]
        simp [commitsOf]
      · simp only [hc, if_true, ite_true]
        rw [ih, commitAtomic_trace, commitsOf_append]
        simp [commitsOf]

/-- The runner performs exactly one atomic commit attempt per group, in group
order, and nothing else commits. -/
theorem runGroupsDel_commits (gs : List (List Key)) : ∀ (fk : List Key) (s : S),
    commitsOf ((runGroupsDel gs fk s).2.trace)
      = commitsOf s.trace ++ gs.map (fun g => g.map Mutation.del) := by
  induction gs with
  | nil => intro fk s; simp [runGroupsDel]
  | cons g gs ih =>
      intro fk s
      simp only [runGroupsDel]
      cases hc : (commitAtomic (g.map Mutation.del) s).1
      · simp only [hc, Bool.false_eq_true, if_false, ite_false]
        rw [ih]
        obtain ⟨evts, htr, _, _, hcom⟩ := retryDelete_trace g
          ((commitAtomic (g.map Mutation.del) s).2)
        rw [htr, commitsOf_append, hcom, List.append_nil, commitAtomic_trace,
          commitsOf_append]
        simp [commitsOf]
      · simp only [hc, if_true, ite_true]
        rw [ih, commitAtomic_trace, commitsOf_append]
        simp [commitsOf]

/-- The runner only ever appends to the trace. -/
theorem runGroupsDel_trace_mono (gs : List (List Key)) :
    ∀ (fk : List Key) (s : S), ∃ evts : List Event,
    (runGroupsDel gs fk s).2.trace = s.trace ++ evts := by
  induction gs with
  | nil => intro fk s; exact ⟨[], by simp [runGroupsDel]⟩
  | cons g gs ih =>
      intro fk s
      simp only [runGroupsDel]
      cases hc : (commitAtomic (g.map Mutation.del) s).1
      · simp only [hc, Bool.false_eq_true, if_false, ite_false]
        obtain ⟨e3, h3⟩ := ih
          (fk ++ (retryDeleteIndividually g (commitAtomic (g.map Mutation.del) s).2).1)
          ((retryDeleteIndividually g (commitAtomic (g.map Mutation.del) s).2).2)
        obtain ⟨e2, h2, _, _, _⟩ := retryDelete_trace g
          ((commitAtomic (g.map Mutation.del) s).2)
        refine ⟨[Event.commit (g.map Mutation.del)
          ((commitAtomic (g.map Mutation.del) s).1)] ++ e2 ++ e3, ?_⟩
        rw [h3, h2, commitAtomic_trace]
        simp
      · simp only [hc, if_true, ite_true]
        obtain ⟨e3, h3⟩ := ih fk ((commitAtomic (g.map Mutation.del) s).2)
        refine ⟨[Event.commit (g.map Mutation.del)
          ((commitAtomic (g.map Mutation.del) s).1)] ++ e3, ?_⟩
        rw [h3, commitAtomic_trace]
        simp

/-- The failed keys the runner accumulates are, beyond the carried prefix, a
sublist of the keys of the groups it runs. -/
theorem runGroupsSet_failed (full : List (Key × JsonValue))
    (gs : List (List (Key × JsonValue))) : ∀ (fk : List Key) (s : S),
    ∃ r : List Key, (runGroupsSet full gs fk s).1 = fk ++ r ∧
      List.Sublist r (gs.flatten.map Prod.fst) := by
  induction gs with
  | nil => intro fk s; exact ⟨[], by simp [runGroupsSet]⟩
  | cons g gs ih =>
      intro fk s
      simp only [runGroupsSet]
      cases hc : (commitAtomic (g.map setMut) s).1
      · simp only [hc, Bool.false_eq_true, if_false, ite_false]
        obtain ⟨r2, hr2, hsub2⟩ := ih
          (fk ++ (retrySetIndividually (g.map Prod.fst) full
            (commitAtomic (g.map setMut) s).2).1)
          ((retrySetIndividually (g.map Prod.fst) full
            (commitAtomic (g.map setMut) s).2).2)
        refine ⟨(retrySetIndividually (g.map Prod.fst) full
            (commitAtomic (g.map setMut) s).2).1 ++ r2, ?_, ?_⟩
        · rw [hr2]; simp
        · have h1 := retrySet_sublist full (g.map Prod.fst)
            ((commitAtomic (g.map setMut) s).2)
          simpa using h1.append hsub2
      · simp only [hc, if_true, ite_true]
        obtain ⟨r2, hr2, hsub2⟩ := ih fk ((commitAtomic (g.map setMut) s).2)
        refine ⟨r2, hr2, ?_⟩
        refine hsub2.trans ?_
        simp only [List.flatten_cons, List.map_append]
        exact List.sublist_append_right (g.map Prod.fst) (gs.flatten.map Prod.fst)

/-- The failed keys the runner accumulates are, beyond the carried prefix, a
sublist of the keys of the groups it runs. -/
theorem runGroupsDel_failed (gs : List (List Key)) : ∀ (fk : List Key) (s : S),
    ∃ r : List Key, (runGroupsDel gs fk s).1 = fk ++ r ∧
      List.Sublist r gs.flatten := by
  induction gs with
  | nil => intro fk s; exact ⟨[], by simp [runGroupsDel]⟩
  | cons g gs ih =>
      intro fk s
      simp only [runGroupsDel]
      cases hc : (commitAtomic (g.map Mutation.del) s).1
      · simp only [hc, Bool.false_eq_true, if_false, ite_false]
        obtain ⟨r2, hr2, hsub2⟩ := ih
          (fk ++ (retryDeleteIndividually g
            (commitAtomic (g.map Mutation.del) s).2).1)
          ((retryDeleteIndividually g (commitAtomic (g.map Mutation.del) s).2).2)
        refine ⟨(retryDeleteIndividually g
            (commitAtomic (g.map Mutation.del) s).2).1 ++ r2, ?_, ?_⟩
        · rw [hr2]; simp
        · have h1 := retryDelete_sublist g ((commitAtomic (g.map Mutation.del) s).2)
          simpa using h1.append hsub2
      · simp only [hc, if_true, ite_true]
        obtain ⟨r2, hr2, hsub2⟩ := ih fk ((commitAtomic (g.map Mutation.del) s).2)
        refine ⟨r2, hr2, ?_⟩
        refine hsub2.trans ?_
        simp only [List.flatten_cons]
        exact List.sublist_append_right g gs.flatten

theorem mkResult_ok_iff (fk : List Key) :
    (mkResult fk).ok = true ↔ (mkResult fk).failedKeys = [] := by
  cases fk <;> simp [mkResult]

theorem mkResult_failed_sublist (fk : List Key) :
    List.Sublist (mkResult fk).failedKeys fk := by
  cases fk <;> simp [mkResult]

/-- The atomic commits of a `multiSet` call are exactly the planned groups,
in order. -/
theorem multiSet_commits (kvs : List (Key × JsonValue)) (s : S) :
    commitsOf ((multiSet kvs s).2.trace)
      = commitsOf s.trace
        ++ (planGroups setSize kvs).map (fun g => g.map setMut) := by
  rw [multiSet_eq_run]
  exact runGroupsSet_commits kvs (planGroups setSize kvs) [] s

/-- The atomic commits of `multiDelete`'s key loop are exactly the planned
groups, in order. -/
theorem multiDeleteKeys_commits (ks : List Key) (s : S) :
    commitsOf ((multiDeleteKeys ks s).2.trace)
      = commitsOf s.trace
        ++ (planGroups delSize ks).map (fun g => g.map Mutation.del) := by
  rw [multiDeleteKeys_eq_run]
  exact runGroupsDel_commits (planGroups delSize ks) [] s

/-- A selector-sourced `multiDelete` whose list iteration succeeds first
materializes the full matching key list and then runs the key loop on it. -/
theorem multiDelete_selector_ok (sel : ListSelector) (st : List (Key × JsonValue))
    (fs : List Bool) (tr : List Event) :
    multiDelete (.selector sel) ⟨st, false :: fs, tr⟩
      = (some (multiDeleteKeys (matchingKeys sel st)
            ⟨st, fs, tr ++ [Event.listed (matchingKeys sel st)]⟩).1,
         (multiDeleteKeys (matchingKeys sel st)
            ⟨st, fs, tr ++ [Event.listed (matchingKeys sel st)]⟩).2) := rfl

/-- A selector-sourced `multiDelete` whose list iteration throws propagates
the failure with no result and no store interaction beyond the iteration. -/
theorem multiDelete_selector_fault (sel : ListSelector)
    (st : List (Key × JsonValue)) (fs : List Bool) (tr : List Event) :
    multiDelete (.selector sel) ⟨st, true :: fs, tr⟩ = (none, ⟨st, fs, tr⟩) := rfl

/-- Filtering a duplicate-free list to the members of one of its sublists
recovers that sublist. -/
theorem filter_mem_of_sublist :
    ∀ {fk keys : List Key}, List.Sublist fk keys → keys.Nodup →
      keys.filter (fun k => decide (k ∈ fk)) = fk := by
  intro fk keys h
  induction h with
  | slnil => intro _; rfl
  | @cons l₁ l₂ a h ih =>
      intro hnd
      have ha : a ∉ l₂ := (List.nodup_cons.mp hnd).1
      have hnd2 := (List.nodup_cons.mp hnd).2
      have hafk : a ∉ l₁ := fun hm => ha (h.subset hm)
      have hd : (decide (a ∈ l₁)) = false := decide_eq_false hafk
      simp [List.filter_cons, hd, ih hnd2]
  | @cons₂ l₁ l₂ a h ih =>
      intro hnd
      have ha : a ∉ l₂ := (List.nodup_cons.mp hnd).1
      have hnd2 := (List.nodup_cons.mp hnd).2
      have htail : l₂.filter (fun k => decide (k ∈ a :: l₁))
          = l₂.filter (fun k => decide (k ∈ l₁)) := by
        apply List.filter_congr
        intro x hx
        have hxa : x ≠ a := fun he => ha (he ▸ hx)
        simp [List.mem_cons, hxa]
      rw [List.filter_cons, if_pos (by simp : (decide (a ∈ a :: l₁)) = true),
        htail, ih hnd2]

/-- For duplicate-free submitted keys, the implicitly-succeeded keys and the
failed keys partition the input by count. -/
theorem length_filter_not_mem {fk keys : List Key}
    (h : List.Sublist fk keys) (hnd : keys.Nodup) :
    (keys.filter (fun k => decide (k ∉ fk))).length + fk.length = keys.length := by
  have h1 := filter_mem_of_sublist h hnd
  have h2 := List.length_eq_length_filter_add (l := keys)
    (fun k => decide (k ∈ fk))
  rw [h1] at h2
  have h3 : (keys.filter (fun k => !(decide (k ∈ fk)))).length
      = (keys.filter (fun k => decide (k ∉ fk))).length := by
    simp [decide_not]
  omega

/-- A 399998-character string payload. -/
def bigStr : String := String.mk (List.replicate 399998 'a')

/-- A payload whose serialization (`"aaa...a"`) is 400000 characters. -/
def bigVal : JsonValue := JsonValue.str bigStr

theorem escapeChar_a : escapeChar 'a' = ['a'] := by decide

theorem escape_replicate_length (n : Nat) :
    ((List.replicate n 'a').map escapeChar).flatten.length = n := by
  induction n with
  | zero => rfl
  | succ n ih => simp [List.replicate_succ, escapeChar_a, ih]

theorem bigVal_size : computeTransactionSize bigVal = 400000 := by
  simp only [computeTransactionSize, bigVal, stringifyChars, quoteStr]
  rw [List.length_append, List.length_append]
  rw [show bigStr.data = List.replicate 399998 'a' from rfl]
  rw [escape_replicate_length]
  rfl

/-- Two operations that individually fit the byte budget but jointly overflow
it are planned into one two-element group: the overflowing operation does not
start a new group. -/
theorem planGroups_pair_oversized {α : Type} (f : α → Nat) (x y : α)
    (hx : f x ≤ SIZE_LIMIT) (hxy : SIZE_LIMIT < f x + f y) :
    planGroups f [x, y] = [[x, y]] := by
  have h1 : ¬(0 + 1 = MAX_NUM_TRANSACTIONS ∨ SIZE_LIMIT < 0 + f x) := by
    intro h
    rcases h with h | h
    · exact absurd h (by decide)
    · rw [Nat.zero_add] at h
      exact absurd h (Nat.not_lt.mpr hx)
  have h2 : 0 + 1 + 1 = MAX_NUM_TRANSACTIONS ∨ SIZE_LIMIT < 0 + f x + f y := by
    right
    rw [Nat.zero_add]
    exact hxy
  simp only [planGroups, planAux, h1, h2, if_true, ite_true, if_false,
    ite_false, Nat.lt_irrefl, List.nil_append, List.cons_append]

theorem flatten_map_map {α β : Type} (f : α → β) (gs : List (List α)) :
    (gs.map (fun g => g.map f)).flatten = gs.flatten.map f := by
  induction gs with
  | nil => rfl
  | cons g gs ih =>
      simp only [List.map_cons, List.flatten_cons, List.map_append, ih]

theorem mapped_set_group_bound (gp : List (Key × JsonValue))
    (h1 : gp.length ≤ MAX_NUM_TRANSACTIONS)
    (h2 : (gp.dropLast.map setSize).sum ≤ SIZE_LIMIT) :
    (gp.map setMut).length ≤ MAX_NUM_TRANSACTIONS ∧
    ((gp.map setMut).dropLast.map mutationSize).sum ≤ SIZE_LIMIT := by
  refine ⟨by simpa using h1, ?_⟩
  have he : (gp.map setMut).dropLast.map mutationSize
      = gp.dropLast.map setSize := by
    rw [← List.map_dropLast, List.map_map]
    rfl
  rw [he]
  exact h2

theorem mapped_del_group_bound (gp : List Key)
    (h1 : gp.length ≤ MAX_NUM_TRANSACTIONS)
    (h2 : (gp.dropLast.map delSize).sum ≤ SIZE_LIMIT) :
    (gp.map Mutation.del).length ≤ MAX_NUM_TRANSACTIONS ∧
    ((gp.map Mutation.del).dropLast.map mutationSize).sum ≤ SIZE_LIMIT := by
  refine ⟨by simpa using h1, ?_⟩
  have he : (gp.map Mutation.del).dropLast.map mutationSize
      = gp.dropLast.map delSize := by
    rw [← List.map_dropLast, List.map_map]
    rfl
  rw [he]
  exact h2

theorem multiSet_result_eq (kvs : List (Key × JsonValue)) (s : S) :
    (multiSet kvs s).1
      = mkResult (runGroupsSet kvs (planGroups setSize kvs) [] s).1 := by
  rw [multiSet_eq_run]

theorem multiDeleteKeys_result_eq (ks : List Key) (s : S) :
    (multiDeleteKeys ks s).1
      = mkResult (runGroupsDel (planGroups delSize ks) [] s).1 := by
  rw [multiDeleteKeys_eq_run]

theorem multiSet_failed_sublist (kvs : List (Key × JsonValue)) (s : S) :
    List.Sublist (multiSet kvs s).1.failedKeys (kvs.map Prod.fst) := by
  obtain ⟨r, hr, hsub⟩ := runGroupsSet_failed kvs (planGroups setSize kvs) [] s
  rw [multiSet_result_eq, hr, List.nil_append]
  refine (mkResult_failed_sublist r).trans ?_
  have h2 : (planGroups setSize kvs).flatten.map Prod.fst = kvs.map Prod.fst := by
    rw [planGroups_flatten]
  rw [← h2]
  exact hsub

theorem multiDeleteKeys_failed_sublist (ks : List Key) (s : S) :
    List.Sublist (multiDeleteKeys ks s).1.failedKeys ks := by
  obtain ⟨r, hr, hsub⟩ := runGroupsDel_failed (planGroups delSize ks) [] s
  rw [multiDeleteKeys_result_eq, hr, List.nil_append]
  refine (mkResult_failed_sublist r).trans ?_
  rw [← planGroups_flatten delSize ks]
  exact hsub

theorem multiSet_ok_iff (kvs : List (Key × JsonValue)) (s : S) :
    (multiSet kvs s).1.ok = true ↔ (multiSet kvs s).1.failedKeys = [] := by
  rw [multiSet_result_eq]
  exact mkResult_ok_iff _

theorem multiDeleteKeys_ok_iff (ks : List Key) (s : S) :
    (multiDeleteKeys ks s).1.ok = true
      ↔ (multiDeleteKeys ks s).1.failedKeys = [] := by
  rw [multiDeleteKeys_result_eq]
  exact mkResult_ok_iff _

/-! ### Claim theorems -/

/-- C1 (amended): every group committed atomically by `multiSet` or
`multiDelete` has at most `MAX_NUM_TRANSACTIONS` operations, and its
cumulative serialized size excluding its final operation is at most
`SIZE_LIMIT`; the operation that overflows the byte budget is included in
the current group (which is then sealed), so a multi-operation group may
exceed `SIZE_LIMIT` by its final operation's size.  The claim's stated
version — only single-operation groups may exceed `SIZE_LIMIT`, and an
overflowing operation starts a new group — is refuted by
`c1_counterexample`. -/
theorem c1_group_bounds_amended (kvs : List (Key × JsonValue)) (ks : List Key)
    (sel : ListSelector) (st : List (Key × JsonValue)) (fs : List Bool) :
    (∀ g ∈ commitsOf ((multiSet kvs ⟨st, fs, []⟩).2.trace),
      g.length ≤ MAX_NUM_TRANSACTIONS ∧
      (g.dropLast.map mutationSize).sum ≤ SIZE_LIMIT) ∧
    (∀ g ∈ commitsOf ((multiDelete (.keys ks) ⟨st, fs, []⟩).2.trace),
      g.length ≤ MAX_NUM_TRANSACTIONS ∧
      (g.dropLast.map mutationSize).sum ≤ SIZE_LIMIT) ∧
    (∀ g ∈ commitsOf ((multiDelete (.selector sel) ⟨st, false :: fs, []⟩).2.trace),
      g.length ≤ MAX_NUM_TRANSACTIONS ∧
      (g.dropLast.map mutationSize).sum ≤ SIZE_LIMIT) := by
  refine ⟨?_, ?_, ?_⟩
  · intro g hg
    rw [multiSet_commits] at hg
    simp only [commitsOf, List.nil_append, List.mem_map] at hg
    obtain ⟨gp, hgp, rfl⟩ := hg
    obtain ⟨hb1, hb2⟩ := planGroups_bounds setSize kvs gp hgp
    exact mapped_set_group_bound gp hb1 hb2
  · intro g hg
    have hg2 : g ∈ commitsOf ((multiDeleteKeys ks ⟨st, fs, []⟩).2.trace) := hg
    rw [multiDeleteKeys_commits] at hg2
    simp only [commitsOf, List.nil_append, List.mem_map] at hg2
    obtain ⟨gp, hgp, rfl⟩ := hg2
    obtain ⟨hb1, hb2⟩ := planGroups_bounds delSize ks gp hgp
    exact mapped_del_group_bound gp hb1 hb2
  · intro g hg
    have hg2 : g ∈ commitsOf ((multiDeleteKeys (matchingKeys sel st)
        ⟨st, fs, [Event.listed (matchingKeys sel st)]⟩).2.trace) := hg
    rw [multiDeleteKeys_commits] at hg2
    simp only [commitsOf, List.nil_append, List.mem_map] at hg2
    obtain ⟨gp, hgp, rfl⟩ := hg2
    obtain ⟨hb1, hb2⟩ := planGroups_bounds delSize (matchingKeys sel st) gp hgp
    exact mapped_del_group_bound gp hb1 hb2

/-- C1 witness: the bound instantiated at a concrete one-element batch. -/
theorem c1_witness :
    ([Mutation.set [KeyPart.str "a"] JsonValue.null] : List Mutation).length
        ≤ MAX_NUM_TRANSACTIONS ∧
    (([Mutation.set [KeyPart.str "a"] JsonValue.null] : List Mutation).dropLast.map
        mutationSize).sum ≤ SIZE_LIMIT :=
  (c1_group_bounds_amended [([KeyPart.str "a"], JsonValue.null)] [] ⟨[]⟩ [] []).1
    [Mutation.set [KeyPart.str "a"] JsonValue.null]
    (by rw [show commitsOf ((multiSet [([KeyPart.str "a"], JsonValue.null)]
          ⟨[], [], []⟩).2.trace)
        = [[Mutation.set [KeyPart.str "a"] JsonValue.null]] from rfl]
        exact List.mem_cons_self _ _)

theorem setSize_bigVal (k : Key) : setSize (k, bigVal) = 400000 := by
  simp only [setSize]
  exact bigVal_size

/-- C1 counterexample: two 400000-character operations are committed together
as one two-element group whose cumulative size 800000 exceeds
`SIZE_LIMIT = 753464`, refuting both that only single-oversized groups may
exceed the byte ceiling and that an operation exceeding the remaining budget
starts a new group. -/
theorem c1_counterexample :
    ∃ g ∈ commitsOf ((multiSet
        [([KeyPart.str "a"], bigVal), ([KeyPart.str "b"], bigVal)]
        ⟨[], [], []⟩).2.trace),
      g.length ≠ 1 ∧ SIZE_LIMIT < (g.map mutationSize).sum := by
  have hx : setSize (([KeyPart.str "a"] : Key), bigVal) ≤ SIZE_LIMIT := by
    rw [setSize_bigVal]
    decide
  have hxy : SIZE_LIMIT < setSize (([KeyPart.str "a"] : Key), bigVal)
      + setSize (([KeyPart.str "b"] : Key), bigVal) := by
    rw [setSize_bigVal, setSize_bigVal]
    decide
  have hplan := planGroups_pair_oversized setSize
    (([KeyPart.str "a"] : Key), bigVal) (([KeyPart.str "b"] : Key), bigVal) hx hxy
  refine ⟨[Mutation.set [KeyPart.str "a"] bigVal, Mutation.set [KeyPart.str "b"] bigVal],
    ?_, ?_, ?_⟩
  · rw [multiSet_commits, hplan]
    simp [commitsOf, setMut]
  · simp
  · have h1 : (([Mutation.set [KeyPart.str "a"] bigVal,
        Mutation.set [KeyPart.str "b"] bigVal] : List Mutation).map mutationSize)
        = [computeTransactionSize bigVal, computeTransactionSize bigVal] := rfl
    rw [h1, bigVal_size]
    decide

/-- C2: concatenating the staged operations of all atomic commit attempts of
`multiSet` (resp. `multiDelete` over an explicit key list), in group order,
reproduces exactly the caller-supplied operation sequence, in insertion
order: nothing dropped, nothing duplicated, nothing reordered. -/
theorem c2_partition_exact (kvs : List (Key × JsonValue)) (ks : List Key)
    (st : List (Key × JsonValue)) (fs : List Bool) :
    (commitsOf ((multiSet kvs ⟨st, fs, []⟩).2.trace)).flatten = kvs.map setMut ∧
    (commitsOf ((multiDelete (.keys ks) ⟨st, fs, []⟩).2.trace)).flatten
      = ks.map Mutation.del := by
  constructor
  · rw [multiSet_commits]
    simp only [commitsOf, List.nil_append]
    rw [flatten_map_map, planGroups_flatten]
  · have he : commitsOf ((multiDelete (.keys ks) ⟨st, fs, []⟩).2.trace)
        = commitsOf ((multiDeleteKeys ks ⟨st, fs, []⟩).2.trace) := rfl
    rw [he, multiDeleteKeys_commits]
    simp only [commitsOf, List.nil_append]
    rw [flatten_map_map, planGroups_flatten]

/-- C3: for `multiSet` and `multiDelete` over an explicit key list, `ok` is
true exactly when `failedKeys` is empty; `failedKeys` is a sublist of the
submitted keys (so no key is invented and order is preserved); for
duplicate-free submissions the implicitly-succeeded keys and the failed keys
are disjoint and their counts sum to the number of submitted keys, so every
submitted key lands in exactly one outcome bucket. -/
theorem c3_outcome_partition (kvs : List (Key × JsonValue)) (ks : List Key)
    (s t : S) :
    ((multiSet kvs s).1.ok = true ↔ (multiSet kvs s).1.failedKeys = []) ∧
    List.Sublist (multiSet kvs s).1.failedKeys (kvs.map Prod.fst) ∧
    ((kvs.map Prod.fst).Nodup →
      ((kvs.map Prod.fst).filter
          (fun k => decide (k ∉ (multiSet kvs s).1.failedKeys))).length
        + (multiSet kvs s).1.failedKeys.length = kvs.length) ∧
    (∀ k ∈ (kvs.map Prod.fst).filter
        (fun k => decide (k ∉ (multiSet kvs s).1.failedKeys)),
      k ∉ (multiSet kvs s).1.failedKeys) ∧
    multiDelete (.keys ks) t
      = (some (multiDeleteKeys ks t).1, (multiDeleteKeys ks t).2) ∧
    ((multiDeleteKeys ks t).1.ok = true
      ↔ (multiDeleteKeys ks t).1.failedKeys = []) ∧
    List.Sublist (multiDeleteKeys ks t).1.failedKeys ks ∧
    (ks.Nodup →
      (ks.filter (fun k => decide (k ∉ (multiDeleteKeys ks t).1.failedKeys))).length
        + (multiDeleteKeys ks t).1.failedKeys.length = ks.length) ∧
    (∀ k ∈ ks.filter (fun k => decide (k ∉ (multiDeleteKeys ks t).1.failedKeys)),
      k ∉ (multiDeleteKeys ks t).1.failedKeys) := by
  refine ⟨multiSet_ok_iff kvs s, multiSet_failed_sublist kvs s, ?_, ?_, rfl,
    multiDeleteKeys_ok_iff ks t, multiDeleteKeys_failed_sublist ks t, ?_, ?_⟩
  · intro hnd
    have h := length_filter_not_mem (multiSet_failed_sublist kvs s) hnd
    simpa using h
  · intro k hk
    rw [List.mem_filter] at hk
    simpa using hk.2
  · intro hnd
    exact length_filter_not_mem (multiDeleteKeys_failed_sublist ks t) hnd
  · intro k hk
    rw [List.mem_filter] at hk
    simpa using hk.2

/-- C3 witness: the outcome partition instantiated at concrete one-key
batches with duplicate-free keys. -/
theorem c3_witness :
    ((([([KeyPart.str "a"], JsonValue.null)].map Prod.fst).filter
        (fun k => decide (k ∉ (multiSet [([KeyPart.str "a"], JsonValue.null)]
          ⟨[], [], []⟩).1.failedKeys))).length
      + (multiSet [([KeyPart.str "a"], JsonValue.null)]
          ⟨[], [], []⟩).1.failedKeys.length
      = [([KeyPart.str "a"], JsonValue.null)].length) ∧
    ((([[KeyPart.str "b"]] : List Key).filter
        (fun k => decide (k ∉ (multiDeleteKeys [[KeyPart.str "b"]]
          ⟨[], [], []⟩).1.failedKeys))).length
      + (multiDeleteKeys [[KeyPart.str "b"]] ⟨[], [], []⟩).1.failedKeys.length
      = ([[KeyPart.str "b"]] : List Key).length) := by
  have h := c3_outcome_partition [([KeyPart.str "a"], JsonValue.null)]
    [[KeyPart.str "b"]] ⟨[], [], []⟩ ⟨[], [], []⟩
  exact ⟨h.2.2.1 (by decide), h.2.2.2.2.2.2.2.1 (by decide)⟩

/-- C4 (code bug): `replaceLocalDataWithRemote` without prefixes discards the
result of the initial `wipeKvStore()` call, so a run whose deletion phase
fails (here: the wipe's atomic commit and its per-key fallback both throw)
still returns `ok = true` with no failed keys, although the very same wipe
reports the key as failed — contradicting the specified
"success iff no delete failures and no write failures" and the union
property of `failedKeys`. -/
theorem c4_wipe_failure_dropped :
    (replaceLocalDataWithRemote [] none
        ⟨[([KeyPart.str "a"], JsonValue.null)], [false, true, true], []⟩).1
      = some ⟨true, []⟩ ∧
    (wipeKvStore
        ⟨[([KeyPart.str "a"], JsonValue.null)], [false, true, true], []⟩).1
      = some ⟨false, [[KeyPart.str "a"]]⟩ := by
  constructor <;> rfl

/-- C5: `multiSet` and `multiDelete`'s key loop are exactly the planner
composed with the per-group committer: one atomic commit attempt per planned
group, in order (never a second atomic attempt for the same group), and on a
failed commit the group's operations — unmodified — are handed to the
per-item fallback retrier. -/
theorem c5_one_commit_per_group (kvs : List (Key × JsonValue)) (ks : List Key)
    (s u : S) (st : List (Key × JsonValue)) (fs : List Bool) :
    multiSet kvs s
      = (mkResult (runGroupsSet kvs (planGroups setSize kvs) [] s).1,
         (runGroupsSet kvs (planGroups setSize kvs) [] s).2) ∧
    multiDeleteKeys ks u
      = (mkResult (runGroupsDel (planGroups delSize ks) [] u).1,
         (runGroupsDel (planGroups delSize ks) [] u).2) ∧
    commitsOf ((multiSet kvs ⟨st, fs, []⟩).2.trace)
      = (planGroups setSize kvs).map (fun g => g.map setMut) ∧
    commitsOf ((multiDelete (.keys ks) ⟨st, fs, []⟩).2.trace)
      = (planGroups delSize ks).map (fun g => g.map Mutation.del) := by
  refine ⟨multiSet_eq_run kvs s, multiDeleteKeys_eq_run ks u, ?_, ?_⟩
  · rw [multiSet_commits]
    rfl
  · have he : commitsOf ((multiDelete (.keys ks) ⟨st, fs, []⟩).2.trace)
        = commitsOf ((multiDeleteKeys ks ⟨st, fs, []⟩).2.trace) := rfl
    rw [he, multiDeleteKeys_commits]
    rfl

/-- C6: the fallback retriers attempt every operation of a failed group
individually — one single-item store attempt per key, in submission order,
no matter which attempts fail — and return exactly the keys of the failed
attempts, in submission order (a sublist of the group's keys). -/
theorem c6_fallback_isolates_failures (ks : List Key)
    (kvs : List (Key × JsonValue)) (s : S) :
    (∃ evts : List Event,
      (retrySetIndividually ks kvs s).2.trace = s.trace ++ evts ∧
      evts.filterMap setAttemptKey = ks ∧
      evts.filterMap failedSetKey = (retrySetIndividually ks kvs s).1) ∧
    List.Sublist (retrySetIndividually ks kvs s).1 ks ∧
    (∃ evts : List Event,
      (retryDeleteIndividually ks s).2.trace = s.trace ++ evts ∧
      evts.filterMap delAttemptKey = ks ∧
      evts.filterMap failedDelKey = (retryDeleteIndividually ks s).1) ∧
    List.Sublist (retryDeleteIndividually ks s).1 ks := by
  obtain ⟨e1, h1, h2, h3, _⟩ := retrySet_trace kvs ks s
  obtain ⟨e2, g1, g2, g3, _⟩ := retryDelete_trace ks s
  exact ⟨⟨e1, h1, h2, h3⟩, retrySet_sublist kvs ks s, ⟨e2, g1, g2, g3⟩,
    retryDelete_sublist ks s⟩

/-- C7: `wipeKvStore` is exactly `multiDelete` applied to the empty-prefix
selector, and `countAll` is exactly `count` applied to the empty-prefix
selector, on every store state (same result and same final state). -/
theorem c7_sugar_equivalences (s : S) :
    wipeKvStore s = multiDelete (.selector ⟨[]⟩) s ∧
    countAll s = count ⟨[]⟩ s :=
  ⟨rfl, rfl⟩

/-- C8: when the range-list iteration underlying a selector-sourced
`multiDelete` or a `count` throws, the error propagates to the caller (no
`MultiResult`, no integer) and the store contents, consumed fault script and
trace show no further interaction: no partial result exists. -/
theorem c8_list_fault_propagates (sel : ListSelector)
    (st : List (Key × JsonValue)) (fs : List Bool) (tr : List Event) :
    multiDelete (.selector sel) ⟨st, true :: fs, tr⟩ = (none, ⟨st, fs, tr⟩) ∧
    count sel ⟨st, true :: fs, tr⟩ = (none, ⟨st, fs, tr⟩) :=
  ⟨rfl, rfl⟩

/-- C9: the byte ceiling is the store's max transaction size minus one max
item size (`819000 - 65536 = 753464`), and the size charged per operation —
visible in the planner argument that reproduces the committed groups — is
the length of the canonical serialization of the operation's payload: the
value for a set, the key for a delete, summed over each group by the
planner. -/
theorem c9_sizing_constants :
    MAX_TRANSACTION_SIZE = 819000 ∧ MAX_KV_VALUE_SIZE = 65536 ∧
    SIZE_LIMIT = MAX_TRANSACTION_SIZE - MAX_KV_VALUE_SIZE ∧
    SIZE_LIMIT = 753464 ∧
    (∀ v : JsonValue, computeTransactionSize v = (stringifyChars v).length) ∧
    (∀ (kvs : List (Key × JsonValue)) (st : List (Key × JsonValue))
        (fs : List Bool),
      commitsOf ((multiSet kvs ⟨st, fs, []⟩).2.trace)
        = (planGroups (fun e => (stringifyChars e.2).length) kvs).map
            (fun g => g.map setMut)) ∧
    (∀ (ks : List Key) (st : List (Key × JsonValue)) (fs : List Bool),
      commitsOf ((multiDelete (.keys ks) ⟨st, fs, []⟩).2.trace)
        = (planGroups (fun k => (stringifyChars (Key.toJson k)).length) ks).map
            (fun g => g.map Mutation.del)) := by
  refine ⟨rfl, rfl, rfl, by decide, fun v => rfl, ?_, ?_⟩
  · intro kvs st fs
    rw [multiSet_commits]
    rfl
  · intro ks st fs
    have he : commitsOf ((multiDelete (.keys ks) ⟨st, fs, []⟩).2.trace)
        = commitsOf ((multiDeleteKeys ks ⟨st, fs, []⟩).2.trace) := rfl
    rw [he, multiDeleteKeys_commits]
    rfl

/-- C10: a selector-sourced `multiDelete` whose iteration succeeds first
materializes the complete matching key range — the first trace event is the
finished listing of all matching keys — before any mutation is staged or
committed, and the operations it then stages are exactly the deletions of
that materialized list. -/
theorem c10_materialize_before_mutate (sel : ListSelector)
    (st : List (Key × JsonValue)) (fs : List Bool) :
    (∃ rest : List Event,
      (multiDelete (.selector sel) ⟨st, false :: fs, []⟩).2.trace
        = Event.listed (matchingKeys sel st) :: rest) ∧
    (commitsOf ((multiDelete (.selector sel)
        ⟨st, false :: fs, []⟩).2.trace)).flatten
      = (matchingKeys sel st).map Mutation.del := by
  have hs : (multiDelete (.selector sel) ⟨st, false :: fs, []⟩).2
      = (multiDeleteKeys (matchingKeys sel st)
          ⟨st, fs, [Event.listed (matchingKeys sel st)]⟩).2 := rfl
  constructor
  · rw [hs, multiDeleteKeys_eq_run]
    obtain ⟨evts, he⟩ := runGroupsDel_trace_mono
      (planGroups delSize (matchingKeys sel st)) []
      ⟨st, fs, [Event.listed (matchingKeys sel st)]⟩
    exact ⟨evts, by rw [he]; rfl⟩
  · rw [hs, multiDeleteKeys_commits]
    simp only [commitsOf, List.nil_append]
    rw [flatten_map_map, planGroups_flatten]

end KvUtils
